import Mathlib

/-!
Verification of the OPLAH-WSKT link-list scripts.

The repository consists of three near-duplicate Python scripts
(link-list.py, link-list-v2.py, link-list-new.py) that enumerate image
files, decompose each path into (project, period, sub-unit, display name)
and build a GitHub URL per file.  We embed the pure string-processing
functions of each script at the character-list level and prove the spec's
testable properties about them.

Python string operations are modelled on `List Char`:
`s.split(c)` (single-character separator) is `splitOnChar`,
`c.join` is `joinSep`, `s.find(pat)` / `pat in s` / `s.split(pat, 1)` are
all expressed through `splitFirst` (the decomposition of a string at the
first occurrence of a pattern), `s.strip()` is `pyStrip`,
`s.rstrip(chars)` is `rstripChars` (which removes trailing characters
drawn from the *set* `chars` — exactly Python's semantics, which differ
from suffix removal), and `os.path.splitext` on a separator-free filename
is `splitextExt` (CPython's rule: the extension starts at the last dot,
provided some character of the name before that dot is not itself a dot).
-/

namespace Oplah

/-- Python `s.split(sep)` for a one-character separator: never returns `[]`,
and `"".split(sep) == [""]`. -/
def splitOnChar (sep : Char) : List Char → List (List Char)
  | [] => [[]]
  | c :: cs =>
    match splitOnChar sep cs with
    | [] => [[]]
    | h :: t => if c = sep then [] :: h :: t else (c :: h) :: t

/-- Python `sep.join(parts)` for a one-character separator. -/
def joinSep (sep : Char) : List (List Char) → List Char
  | [] => []
  | [x] => x
  | x :: y :: rest => x ++ sep :: joinSep sep (y :: rest)

/-- Decompose a list at the first occurrence of `pat`:
`splitFirst pat l = some (a, b)` iff `l = a ++ pat ++ b` with `a` shortest.
This models Python's `find`, `in` and `split(pat, 1)` in one function. -/
def splitFirst (pat : List Char) : List Char → Option (List Char × List Char)
  | [] => if pat.isPrefixOf ([] : List Char) then some ([], []) else none
  | c :: cs =>
    if pat.isPrefixOf (c :: cs) then some ([], (c :: cs).drop pat.length)
    else (splitFirst pat cs).map (fun ab => (c :: ab.1, ab.2))

/-- Python `pat in s` (substring containment). -/
def containsSub (pat l : List Char) : Bool :=
  (splitFirst pat l).isSome

/-- Python `s.rstrip(chars)`: remove trailing characters belonging to the
character set `cut` (NOT suffix removal). -/
def rstripChars (cut : List Char) (l : List Char) : List Char :=
  (l.reverse.dropWhile (fun c => cut.contains c)).reverse

/-- Python `s.strip()`: remove leading and trailing whitespace. -/
def pyStrip (l : List Char) : List Char :=
  ((l.dropWhile Char.isWhitespace).reverse.dropWhile Char.isWhitespace).reverse

/-- Python `s.split(sep)[0]` for a one-character separator. -/
def splitHead (sep : Char) (l : List Char) : List Char :=
  (splitOnChar sep l).headD []

/-- Per-character effect of Python `part.replace(' ', '%20')`. -/
def spaceEnc (c : Char) : List Char :=
  if c = ' ' then "%20".data else [c]

/-- First character is a digit (guarded use: Python `name[0].isdigit()` is
only evaluated on nonempty strings in the source). -/
def firstIsDigit : List Char → Bool
  | [] => false
  | c :: _ => c.isDigit

/-- CPython `os.path.splitext(l)[1]` for a separator-free basename: the
extension runs from the last '.' to the end, provided some character
before that dot is not a dot; otherwise the extension is empty. -/
def splitextExt (l : List Char) : List Char :=
  match l.reverse.dropWhile (fun c => c ≠ '.') with
  | [] => []
  | _ :: b =>
    if b.any (fun c => c ≠ '.') then
      '.' :: (l.reverse.takeWhile (fun c => c ≠ '.')).reverse
    else []

end Oplah

namespace Oplah.LinkList
/-! Embedding of `src/link-list.py` (Convention B, raw-URL shape). -/

/-- ALLOWED_EXT of link-list.py (identical in all three scripts). -/
def ALLOWED_EXT : List (List Char) :=
  [".png".data, ".jpg".data, ".jpeg".data, ".gif".data, ".webp".data,
   ".bmp".data, ".tif".data, ".tiff".data, ".svg".data]

/-- `is_image` (lines 19-21): lowercase, `os.path.splitext`, membership. -/
def is_image (filename : String) : Bool :=
  decide (splitextExt (filename.data.map Char.toLower) ∈ ALLOWED_EXT)

/-- `encode_path` (lines 58-62): split on '/', replace each space by
"%20" within every segment, rejoin. -/
def encode_path (path : String) : String :=
  String.mk (joinSep '/'
    ((splitOnChar '/' path.data).map (fun part => part.flatMap spaceEnc)))

/-- `make_github_url` (lines 64-67): raw.githubusercontent.com shape. -/
def make_github_url (owner repo branch path : String) : String :=
  "https://raw.githubusercontent.com/" ++ owner ++ "/" ++ repo ++
    "/refs/heads/" ++ branch ++ "/" ++ encode_path path

/-- The remote-URL parsing step of `get_git_info` (lines 37-47):
host check, then HTTPS or SSH shape, with Python's `rstrip(".git")`
(set-based trailing-character removal) before the final split.
`none` models the exceptions (ValueError / unpacking errors) that the
caller recovers from. -/
def parse_remote (remote : String) : Option (String × String) :=
  if containsSub ("github.com".data) remote.data = false then none
  else if ("https".data).isPrefixOf remote.data then
    match splitOnChar '/' (rstripChars (".git".data) remote.data) with
    | [_, _, _, owner, repo] => some (String.mk owner, String.mk repo)
    | _ => none
  else
    match splitOnChar ':' remote.data with
    | [_, owner_repo] =>
      match splitOnChar '/' (rstripChars (".git".data) owner_repo) with
      | [owner, repo] => some (String.mk owner, String.mk repo)
      | _ => none
    | _ => none

/-- `row_from_path` (lines 82-92): fixed 3-level decomposition.
`os.sep` is '/' on the POSIX systems the scripts target. -/
def row_from_path (path : String) : String × String × String × String :=
  match splitOnChar '/' path.data with
  | [] => ("", "", "", "")
  | parts =>
    let filename := parts.getLastD []
    let folders := parts.dropLast
    let folder0 := if 1 ≤ folders.length then folders.getD 0 [] else []
    let folder1 := if 2 ≤ folders.length then folders.getD 1 [] else []
    let folder2 := if 3 ≤ folders.length then joinSep '/' (folders.drop 2) else []
    (String.mk folder0, String.mk folder1, String.mk folder2, String.mk filename)

end Oplah.LinkList

namespace Oplah.LinkListV2
/-! Embedding of `src/link-list-v2.py` (named-fields convention with
numeric-prefix stripping, raw-URL shape). -/

/-- `clean_folder_name` (lines 66-71): if `'. '` occurs in the name and
the first character is a digit, keep only the part after the FIRST
occurrence of `'. '` (Python `name.split('. ', 1)[1]`). -/
def clean_folder_name (name : String) : String :=
  match splitFirst ['.', ' '] name.data with
  | some (_, b) => if firstIsDigit name.data then String.mk b else name
  | none => name

/-- The `parts[0] == '.'` strip step of `parse_path_info` (lines 77-79). -/
def stripDot : List (List Char) → List (List Char)
  | (['.'] :: rest) => rest
  | parts => parts

/-- `parse_path_info` (lines 73-100).  The fall-through branch indexes
`parts[0]`, `parts[1]`, `parts[2]`; an out-of-range access (IndexError in
Python, e.g. for the empty path) is modelled as `none`. -/
def parse_path_info (path : String) : Option (String × String × String × String) :=
  let parts := stripDot (splitOnChar '/' path.data)
  match parts with
  | [p, _] => some (String.mk p, "", "", path)
  | [p, per, _] => some (String.mk p, String.mk per, "", path)
  | _ =>
    match parts[0]?, parts[1]?, parts[2]? with
    | some p, some per, some di =>
      some (String.mk p, String.mk per, clean_folder_name (String.mk di), path)
    | _, _, _ => none

/-- `encode_path` (lines 53-57): identical to link-list.py's. -/
def encode_path (path : String) : String :=
  String.mk (joinSep '/'
    ((splitOnChar '/' path.data).map (fun part => part.flatMap spaceEnc)))

/-- `make_github_url` (lines 60-63): raw.githubusercontent.com shape. -/
def make_github_url (owner repo branch path : String) : String :=
  "https://raw.githubusercontent.com/" ++ owner ++ "/" ++ repo ++
    "/refs/heads/" ++ branch ++ "/" ++ encode_path path

/-- The per-file list-entry construction of `main` (line 158):
`f"./{folder_path}/{f}"`. -/
def file_entry (folder_path rel : String) : String :=
  "./" ++ folder_path ++ "/" ++ rel

/-- The per-path row construction of `main` (lines 178-190): parse the
path, then append the URL — built only when owner, repo and branch are
all present and truthy (Python's `if owner and repo and branch`), else
the empty string.  `info = none` models the recovered remote-resolution
failure (`owner = repo = branch = None`). -/
def emit_row (info : Option (String × String × String)) (path : String) :
    Option (List String) :=
  (parse_path_info path).map (fun r =>
    [r.1, r.2.1, r.2.2.1, r.2.2.2,
     match info with
     | some (o, rp, br) =>
       if o.isEmpty || rp.isEmpty || br.isEmpty then ""
       else make_github_url o rp br path
     | none => ""])

end Oplah.LinkListV2

namespace Oplah.LinkListNew
/-! Embedding of `src/link-list-new.py` (marker-search convention,
blob-URL shape). -/

/-- The literal marker searched for in segment 2 (line 91). -/
def diMarker : List Char := ['D', '.', 'I']

/-- The sub-unit extraction of `row_from_path` (lines 90-93):
`folder_name[folder_name.find("D.I"):].split("/")[0].strip()` when
`"D.I" in folder_name`, else the empty string. -/
def di_extract (seg : List Char) : List Char :=
  match splitFirst diMarker seg with
  | some (_, b) => pyStrip (splitHead '/' (diMarker ++ b))
  | none => []

/-- `row_from_path` (lines 73-98): project = parts[0], period = parts[1]
when present, sub-unit from parts[2] by marker search when present, and
display name `"./" + path`. -/
def row_from_path (path : String) : String × String × String × String :=
  match splitOnChar '/' path.data with
  | [] => ("", "", "", "")
  | parts =>
    let project_name := if 0 < parts.length then parts.getD 0 [] else []
    let period := if 1 < parts.length then parts.getD 1 [] else []
    let di_name := if 2 < parts.length then di_extract (parts.getD 2 []) else []
    (String.mk project_name, String.mk period, String.mk di_name,
     String.mk ('.' :: '/' :: path.data))

end Oplah.LinkListNew

namespace Oplah

/-! ### Helper lemmas about the string-operation embedding -/

theorem splitOnChar_ne_nil (sep : Char) (l : List Char) : splitOnChar sep l ≠ [] := by
  induction l with
  | nil => simp [splitOnChar]
  | cons c cs ih =>
    rcases h : splitOnChar sep cs with _ | ⟨x, xs⟩
    · exact absurd h ih
    · simp only [splitOnChar, h]
      split <;> simp

theorem joinSep_cons_append (sep : Char) (a b : List Char) (zs : List (List Char)) :
    joinSep sep ((a ++ b) :: zs) = a ++ joinSep sep (b :: zs) := by
  cases zs with
  | nil => rfl
  | cons z zs => simp [joinSep, List.append_assoc]

/-- The split / replace-within-segments / rejoin pipeline of `encode_path`
is exactly a character-by-character rewrite of the whole path: every space
becomes "%20" and every other character (the separator included) passes
through unchanged. -/
theorem joinSep_split_spaceEnc (l : List Char) :
    joinSep '/' ((splitOnChar '/' l).map (fun part => part.flatMap spaceEnc))
      = l.flatMap spaceEnc := by
  induction l with
  | nil => rfl
  | cons c cs ih =>
    rcases h : splitOnChar '/' cs with _ | ⟨x, xs⟩
    · exact absurd h (splitOnChar_ne_nil _ _)
    · rw [h] at ih
      simp only [List.map_cons] at ih
      by_cases hc : c = '/'
      · subst hc
        simp only [splitOnChar, h, if_pos rfl, List.map_cons, List.flatMap_cons,
          joinSep, List.nil_append]
        rw [ih]
        simp [spaceEnc]
      · simp only [splitOnChar, h, if_neg hc, List.map_cons, List.flatMap_cons]
        rw [joinSep_cons_append, ih]

end Oplah

namespace Oplah

/-- Claim C5: `encode_path` splits on '/', replaces every literal space by
"%20" in each segment independently, rejoins with '/', and performs no
other transformation (equivalently, it is the character-wise `spaceEnc`
rewrite of the whole path, so every non-space character passes through
unchanged); and `make_github_url` is exactly the raw-shape concatenation
around the encoded path.  In particular
`make_github_url "o" "r" "main" "a b/c.png"` is the claimed URL. -/
theorem claim_C5 (o r b p : String) :
    LinkList.make_github_url o r b p
      = "https://raw.githubusercontent.com/" ++ o ++ "/" ++ r ++ "/refs/heads/"
        ++ b ++ "/" ++ LinkList.encode_path p
    ∧ (LinkList.encode_path p).data = p.data.flatMap spaceEnc
    ∧ LinkList.make_github_url ("o") ("r") ("main") ("a b/c.png")
      = "https://raw.githubusercontent.com/o/r/refs/heads/main/a%20b/c.png" :=
  ⟨rfl, joinSep_split_spaceEnc p.data, by decide⟩

/-- Claim C1 counterexample: the marker-search variant `row_from_path` of
link-list-new.py does NOT return `period = ""` on a path with exactly two
segments — the second segment (the bare filename) lands in the period
column. -/
theorem claim_C1_counterexample :
    (LinkListNew.row_from_path ("a/b.png")).2.1 = "b.png"
    ∧ ("b.png" : String) ≠ "" := by
  exact ⟨rfl, by decide⟩

/-- Claim C1 (amended): the two-segment and three-segment guarantees hold
for the numeric-prefix-strip variant `parse_path_info` of link-list-v2.py
(segments counted after stripping a leading "." produced by a "./"
marker): 2 segments give `period = ""` and `subunit = ""`, 3 segments
give `subunit = ""`.  The marker-search variant `row_from_path` of
link-list-new.py gives no such guarantee. -/
theorem claim_C1_amended :
    (∀ (path : String) (a b : List Char),
        LinkListV2.stripDot (splitOnChar '/' path.data) = [a, b] →
        LinkListV2.parse_path_info path = some (String.mk a, "", "", path))
    ∧ (∀ (path : String) (a b c : List Char),
        LinkListV2.stripDot (splitOnChar '/' path.data) = [a, b, c] →
        LinkListV2.parse_path_info path
          = some (String.mk a, String.mk b, "", path)) := by
  constructor
  · intro path a b h
    simp only [LinkListV2.parse_path_info, h]
  · intro path a b c h
    simp only [LinkListV2.parse_path_info, h]

theorem claim_C1_amended_witness :
    LinkListV2.parse_path_info ("./a/b.png") = some ("a", "", "", "./a/b.png")
    ∧ LinkListV2.parse_path_info ("a/b/c.png") = some ("a", "b", "", "a/b/c.png") :=
  ⟨claim_C1_amended.1 ("./a/b.png") (['a']) ("b.png".data) (by decide),
   claim_C1_amended.2 ("a/b/c.png") (['a']) (['b']) ("c.png".data) (by decide)⟩

/-- Claim C4 counterexample: running the link-list-v2.py pipeline on the
directory scenario of the claim (scan root "Proj", discovered relative
path "M3/1. D.I Foo/img.png", remote ("o", "r", "main")) does not emit
the row the claim states: the entry point prepends a "./" marker
(line 158), which survives into the displayName column and the URL. -/
theorem claim_C4_counterexample :
    LinkListV2.emit_row (some ("o", "r", "main"))
        (LinkListV2.file_entry ("Proj") ("M3/1. D.I Foo/img.png"))
      ≠ some [("Proj" : String), "M3", "D.I Foo", "Proj/M3/1. D.I Foo/img.png",
              "https://raw.githubusercontent.com/o/r/refs/heads/main/Proj/M3/1.%20D.I%20Foo/img.png"] := by
  decide

/-- Claim C4 (amended): in the end-to-end scenario (scan root "Proj",
discovered relative path "M3/1. D.I Foo/img.png", remote
("o", "r", "main")) the emitted row is the claimed one except that the
"./" marker prepended by the entry point appears verbatim at the start of
the displayName column and (space-encoded only, hence unchanged) inside
the URL. -/
theorem claim_C4_amended :
    LinkListV2.emit_row (some ("o", "r", "main"))
        (LinkListV2.file_entry ("Proj") ("M3/1. D.I Foo/img.png"))
      = some [("Proj" : String), "M3", "D.I Foo", "./Proj/M3/1. D.I Foo/img.png",
              "https://raw.githubusercontent.com/o/r/refs/heads/main/./Proj/M3/1.%20D.I%20Foo/img.png"] := by
  decide

/-- Claim C6 counterexample: on the empty path the marker-search variant
`row_from_path` of link-list-new.py returns "./" (not "") in its fourth
component, so not every decomposer variant returns four empty strings. -/
theorem claim_C6_counterexample :
    LinkListNew.row_from_path ("") ≠ ("", "", "", "") := by
  decide

/-- Claim C6 (amended): on the empty path the fixed 3-level variant
(link-list.py `row_from_path`) does return four empty strings without
failing; the marker-search variant (link-list-new.py) returns
("", "", "", "./"); and link-list-v2.py's `parse_path_info` fails with an
IndexError (modelled as `none`) instead of returning a tuple. -/
theorem claim_C6_amended :
    LinkList.row_from_path ("") = ("", "", "", "")
    ∧ LinkListNew.row_from_path ("") = ("", "", "", "./")
    ∧ LinkListV2.parse_path_info ("") = none := by
  exact ⟨rfl, rfl, rfl⟩

/-- Claim C8, evaluation at the failing input: Python's
`remote.rstrip(".git")` removes trailing characters drawn from the SET
{'.', 'g', 'i', 't'}, not just an optional ".git" suffix, so the repo
name of "https://github.com/o/testing" comes back truncated to "testin"
instead of unaltered. -/
theorem claim_C8_code_eval :
    LinkList.parse_remote ("https://github.com/o/testing") = some ("o", "testin")
    ∧ ("testin" : String) ≠ "testing" := by
  exact ⟨by decide, by decide⟩

end Oplah

namespace Oplah

theorem containsSub_cons (pat : List Char) (c : Char) (l : List Char) :
    containsSub pat (c :: l) = (pat.isPrefixOf (c :: l) || containsSub pat l) := by
  simp only [containsSub, splitFirst]
  by_cases h : pat.isPrefixOf (c :: l)
  · simp [h]
  · cases hs : splitFirst pat l <;> simp [h, hs]

theorem splitFirst_decomp {pat l a b : List Char}
    (h : splitFirst pat l = some (a, b)) : l = a ++ pat ++ b := by
  induction l generalizing a b with
  | nil =>
    simp only [splitFirst] at h
    split at h
    · rename_i hp
      have hpat : pat = [] := by
        cases pat with
        | nil => rfl
        | cons p ps => simp [List.isPrefixOf] at hp
      simp only [Option.some.injEq, Prod.mk.injEq] at h
      obtain ⟨rfl, rfl⟩ := h
      simp [hpat]
    · exact absurd h (by simp)
  | cons c cs ih =>
    simp only [splitFirst] at h
    split at h
    · rename_i hp
      obtain ⟨t, ht⟩ := List.isPrefixOf_iff_prefix.1 hp
      simp only [Option.some.injEq, Prod.mk.injEq] at h
      obtain ⟨rfl, rfl⟩ := h
      rw [← ht, List.drop_left]
      simp
    · rename_i hp
      rcases Option.map_eq_some'.1 h with ⟨⟨a1, b1⟩, hs, hf⟩
      have hcs := ih hs
      simp only [Prod.mk.injEq] at hf
      obtain ⟨rfl, rfl⟩ := hf
      simp [hcs]

theorem splitFirst_dotSpace (pre post : List Char)
    (h : containsSub ['.', ' '] (pre ++ ['.']) = false) :
    splitFirst ['.', ' '] (pre ++ '.' :: ' ' :: post) = some (pre, post) := by
  induction pre with
  | nil =>
    have hp : (['.', ' '] : List Char).isPrefixOf ('.' :: ' ' :: post) = true := by
      rw [List.isPrefixOf_iff_prefix]
      exact ⟨post, rfl⟩
    simp [splitFirst, hp]
  | cons c cs ih =>
    simp only [List.cons_append] at h ⊢
    rw [containsSub_cons] at h
    rcases Bool.or_eq_false_iff.1 h with ⟨h1, h2⟩
    have hneg : ¬ (['.', ' '] : List Char).isPrefixOf
        (c :: (cs ++ '.' :: ' ' :: post)) = true := by
      intro hp
      rw [List.isPrefixOf_iff_prefix] at hp
      cases cs with
      | nil =>
        simp only [List.nil_append] at hp
        rw [List.cons_prefix_cons] at hp
        obtain ⟨rfl, hp2⟩ := hp
        rw [List.cons_prefix_cons] at hp2
        exact absurd hp2.1 (by decide)
      | cons c2 cs2 =>
        simp only [List.cons_append] at hp
        rw [List.cons_prefix_cons] at hp
        obtain ⟨rfl, hp2⟩ := hp
        rw [List.cons_prefix_cons] at hp2
        obtain ⟨rfl, -⟩ := hp2
        have : (['.', ' '] : List Char).isPrefixOf ('.' :: ' ' :: (cs2 ++ ['.'])) = true := by
          rw [List.isPrefixOf_iff_prefix]
          exact ⟨cs2 ++ ['.'], rfl⟩
        rw [List.cons_append] at h1
        exact absurd this (by simp [h1])
    simp only [splitFirst]
    rw [if_neg hneg, ih h2]
    rfl

end Oplah

namespace Oplah

/-- Claim C2: `clean_folder_name` drops everything up to and including the
FIRST occurrence of ". " whenever the name starts with a digit and
contains ". " (first part; the minimality of the split point is the
`containsSub (pre ++ ['.']) = false` hypothesis, which says no occurrence
of ". " starts before the designated one), and returns the name unchanged
whenever ". " is absent or the first character is not a digit (second
part). -/
theorem claim_C2 :
    (∀ (s : String) (pre post : List Char),
        s.data = pre ++ '.' :: ' ' :: post →
        containsSub ['.', ' '] (pre ++ ['.']) = false →
        firstIsDigit s.data = true →
        LinkListV2.clean_folder_name s = String.mk post)
    ∧ (∀ s : String,
        containsSub ['.', ' '] s.data = false ∨ firstIsDigit s.data = false →
        LinkListV2.clean_folder_name s = s) := by
  constructor
  · intro s pre post hdata hfirst hdig
    rw [hdata] at hdig
    unfold LinkListV2.clean_folder_name
    rw [hdata, splitFirst_dotSpace pre post hfirst]
    exact if_pos hdig
  · intro s h
    unfold LinkListV2.clean_folder_name
    rcases h with h | h
    · have hnone : splitFirst ['.', ' '] s.data = none := by
        rcases hs : splitFirst ['.', ' '] s.data with _ | v
        · rfl
        · rw [containsSub, hs] at h
          simp at h
      rw [hnone]
    · rcases hs : splitFirst ['.', ' '] s.data with _ | ⟨a, b⟩
      · rfl
      · exact if_neg (by simp [h])

theorem claim_C2_witness :
    LinkListV2.clean_folder_name ("1. D.I Foo Bar") = "D.I Foo Bar"
    ∧ LinkListV2.clean_folder_name ("10. Something") = "Something"
    ∧ LinkListV2.clean_folder_name ("1. a. b") = "a. b"
    ∧ LinkListV2.clean_folder_name ("D.I Foo Bar") = "D.I Foo Bar" :=
  ⟨claim_C2.1 ("1. D.I Foo Bar") (['1']) ("D.I Foo Bar".data)
      (by decide) (by decide) (by decide),
   claim_C2.1 ("10. Something") ("10".data) ("Something".data)
      (by decide) (by decide) (by decide),
   claim_C2.1 ("1. a. b") (['1']) ("a. b".data)
      (by decide) (by decide) (by decide),
   claim_C2.2 ("D.I Foo Bar") (Or.inl (by decide))⟩

/-- Claim C9: when remote resolution is unavailable (modelled by
`info = none`, the recovered `ValueError` path of `main`), the emitted
row still carries the four parse columns unchanged and its url field is
the empty string. -/
theorem claim_C9 (path a b c d : String)
    (h : LinkListV2.parse_path_info path = some (a, b, c, d)) :
    LinkListV2.emit_row none path = some [a, b, c, d, ""] := by
  simp [LinkListV2.emit_row, h]

theorem claim_C9_witness :
    LinkListV2.emit_row none ("a/b/c/d.png")
      = some [("a" : String), "b", "c", "a/b/c/d.png", ""] :=
  claim_C9 ("a/b/c/d.png") ("a") ("b") ("c") ("a/b/c/d.png") (by decide)

end Oplah

namespace Oplah

theorem splitHead_eq_takeWhile (sep : Char) (l : List Char) :
    splitHead sep l = l.takeWhile (fun c => c ≠ sep) := by
  induction l with
  | nil => rfl
  | cons c cs ih =>
    rcases h : splitOnChar sep cs with _ | ⟨x, xs⟩
    · exact absurd h (splitOnChar_ne_nil _ _)
    · simp only [splitHead, h, List.headD_cons] at ih
      simp only [splitHead, splitOnChar, h]
      by_cases hc : c = sep
      · simp [hc, List.takeWhile_cons]
      · simp [hc, List.takeWhile_cons, ih]

theorem not_mem_of_mem_splitOnChar {sep : Char} {l x : List Char}
    (hx : x ∈ splitOnChar sep l) : sep ∉ x := by
  induction l generalizing x with
  | nil =>
    simp only [splitOnChar, List.mem_singleton] at hx
    subst hx
    simp
  | cons c cs ih =>
    rcases h : splitOnChar sep cs with _ | ⟨y, ys⟩
    · exact absurd h (splitOnChar_ne_nil _ _)
    · simp only [splitOnChar, h] at hx
      have hy : y ∈ splitOnChar sep cs := by
        rw [h]
        exact List.mem_cons_self _ _
      by_cases hc : c = sep
      · rw [if_pos hc] at hx
        rcases List.mem_cons.1 hx with rfl | hx2
        · simp
        · exact ih (h ▸ hx2)
      · rw [if_neg hc] at hx
        rcases List.mem_cons.1 hx with rfl | hx2
        · intro hmem
          rcases List.mem_cons.1 hmem with rfl | hmem2
          · exact hc rfl
          · exact ih hy hmem2
        · exact ih (by rw [h]; exact List.mem_cons_of_mem _ hx2)

theorem diMarker_pyStrip (t : List Char) :
    LinkListNew.diMarker <+: pyStrip (LinkListNew.diMarker ++ t) := by
  have h1 : (LinkListNew.diMarker ++ t).dropWhile Char.isWhitespace
      = LinkListNew.diMarker ++ t := by
    simp [LinkListNew.diMarker, List.dropWhile_cons]
  unfold pyStrip
  rw [h1, List.reverse_append, List.dropWhile_append]
  by_cases he : (t.reverse.dropWhile Char.isWhitespace).isEmpty = true
  · rw [if_pos he]
    have h2 : LinkListNew.diMarker.reverse.dropWhile Char.isWhitespace
        = LinkListNew.diMarker.reverse := by decide
    rw [h2, List.reverse_reverse]
  · rw [if_neg he, List.reverse_append, List.reverse_reverse]
    exact ⟨_, rfl⟩

/-- Sub-unit rule as worded by the spec (for comparison with the code's
`di_extract`): the substring from the first occurrence of "D.I" to the
END of the segment, trimmed of surrounding whitespace; empty string when
the marker is absent. -/
def di_rule_spec (seg : List Char) : List Char :=
  match splitFirst LinkListNew.diMarker seg with
  | some (_, b) => pyStrip (LinkListNew.diMarker ++ b)
  | none => []

theorem di_extract_eq_rule {seg : List Char} (hs : ('/' : Char) ∉ seg) :
    LinkListNew.di_extract seg = di_rule_spec seg := by
  unfold LinkListNew.di_extract di_rule_spec
  rcases hsf : splitFirst LinkListNew.diMarker seg with _ | ⟨a, b⟩
  · rfl
  · have hdec := splitFirst_decomp hsf
    have hb : ('/' : Char) ∉ LinkListNew.diMarker ++ b := by
      intro hmem
      rcases List.mem_append.1 hmem with h1 | h1
      · revert h1
        decide
      · exact hs (by rw [hdec]; simp [h1])
    have hall : ∀ x ∈ LinkListNew.diMarker ++ b, (decide (x ≠ '/')) = true := by
      intro x hx
      simp only [decide_eq_true_eq]
      intro hxeq
      exact hb (hxeq ▸ hx)
    show pyStrip (splitHead '/' (LinkListNew.diMarker ++ b))
      = pyStrip (LinkListNew.diMarker ++ b)
    rw [splitHead_eq_takeWhile, List.takeWhile_eq_self_iff.2 hall]

end Oplah

namespace Oplah

/-- Claim C3: for every path with at least 4 slash-separated segments,
the sub-unit emitted by the marker-search variant `row_from_path`
(link-list-new.py) equals the spec's rule applied to segment 2: the
substring from the first occurrence of "D.I" to the end of the segment,
trimmed of surrounding whitespace, or "" when the marker is absent.
(The code's extra `.split("/")[0]` step is vacuous because split segments
never contain '/'.) -/
theorem claim_C3 (path : String)
    (h : 4 ≤ (splitOnChar '/' path.data).length) :
    (LinkListNew.row_from_path path).2.2.1
      = String.mk (di_rule_spec ((splitOnChar '/' path.data).getD 2 [])) := by
  rcases hp : splitOnChar '/' path.data with _ | ⟨p, rest⟩
  · exact absurd hp (splitOnChar_ne_nil _ _)
  · rw [hp] at h
    have hlen : 2 < (p :: rest).length := by
      simp only [List.length_cons] at h ⊢
      omega
    have hmem : (p :: rest).getD 2 [] ∈ (p :: rest) := by
      rw [List.getD_eq_getElem _ _ hlen]
      exact List.getElem_mem hlen
    have hnos : ('/' : Char) ∉ (p :: rest).getD 2 [] :=
      not_mem_of_mem_splitOnChar (by rw [hp]; exact hmem)
    simp only [LinkListNew.row_from_path, hp]
    rw [if_pos hlen, di_extract_eq_rule hnos]

theorem claim_C3_witness :
    (LinkListNew.row_from_path ("x/M3/1. M3 D.I Citasuk Banten Paket I/img.png")).2.2.1
      = "D.I Citasuk Banten Paket I" :=
  (claim_C3 ("x/M3/1. M3 D.I Citasuk Banten Paket I/img.png") (by decide)).trans
    (by decide)

/-- Claim C10: under the marker-search variant (link-list-new.py
`row_from_path`), whenever the extracted sub-unit is non-empty it starts
with the literal characters "D.I": the find locates the marker, the slice
starts at it, and trimming never removes it. -/
theorem claim_C10 (path : String)
    (h : (LinkListNew.row_from_path path).2.2.1 ≠ "") :
    LinkListNew.diMarker <+: ((LinkListNew.row_from_path path).2.2.1).data := by
  rcases hp : splitOnChar '/' path.data with _ | ⟨p, rest⟩
  · exact absurd hp (splitOnChar_ne_nil _ _)
  · simp only [LinkListNew.row_from_path, hp] at h ⊢
    by_cases hlen : 2 < (p :: rest).length
    · rw [if_pos hlen] at h ⊢
      rcases hsf : splitFirst LinkListNew.diMarker ((p :: rest).getD 2 []) with _ | ⟨a, b⟩
      · rw [LinkListNew.di_extract, hsf] at h
        exact absurd rfl h
      · show LinkListNew.diMarker <+:
          (String.mk (LinkListNew.di_extract ((p :: rest).getD 2 []))).data
        rw [LinkListNew.di_extract, hsf]
        show LinkListNew.diMarker <+:
          pyStrip (splitHead '/' (LinkListNew.diMarker ++ b))
        rw [splitHead_eq_takeWhile,
          List.takeWhile_append_of_pos (by decide :
            ∀ a ∈ LinkListNew.diMarker, (decide (a ≠ '/')) = true)]
        exact diMarker_pyStrip _
    · rw [if_neg hlen] at h
      exact absurd rfl h

theorem claim_C10_witness :
    ((LinkListNew.row_from_path ("a/b/1. M3 D.I X/img.png")).2.2.1 ≠ "")
    ∧ LinkListNew.diMarker
        <+: ((LinkListNew.row_from_path ("a/b/1. M3 D.I X/img.png")).2.2.1).data :=
  ⟨by decide, claim_C10 ("a/b/1. M3 D.I X/img.png") (by decide)⟩

end Oplah

namespace Oplah

theorem dropWhile_cons_head_false {p : Char → Bool} {l : List Char} {x : Char}
    {xs : List Char} (h : l.dropWhile p = x :: xs) : p x = false := by
  induction l with
  | nil => simp at h
  | cons c cs ih =>
    rw [List.dropWhile_cons] at h
    by_cases hp : p c = true
    · rw [if_pos hp] at h
      exact ih h
    · rw [if_neg hp] at h
      injection h with h1 h2
      subst h1
      simpa using hp

/-- Characterization of the CPython extension rule: the extension is
`'.' :: e` exactly when the name decomposes as `a ++ '.' :: e` with no
dot in `e` (so this is the LAST dot) and some character of `a` that is
not itself a dot (CPython's leading-dots proviso). -/
theorem splitextExt_eq_dot {l e : List Char} :
    splitextExt l = '.' :: e ↔
      ∃ a, l = a ++ '.' :: e ∧ ('.' : Char) ∉ e ∧ ∃ c ∈ a, c ≠ '.' := by
  constructor
  · intro h
    unfold splitextExt at h
    rcases hd : l.reverse.dropWhile (fun c => c ≠ '.') with _ | ⟨x, b⟩
    · rw [hd] at h
      have h0 : ([] : List Char) = '.' :: e := h
      simp at h0
    · rw [hd] at h
      have h1 : (if (b.any fun c => decide (c ≠ '.')) = true then
          '.' :: (List.takeWhile (fun c => decide (c ≠ '.')) l.reverse).reverse
        else []) = '.' :: e := h
      clear h
      by_cases hany : (b.any fun c => decide (c ≠ '.')) = true
      · rw [if_pos hany] at h1
        have hx : x = '.' := by
          have := dropWhile_cons_head_false hd
          simpa using this
        subst hx
        simp only [List.cons.injEq] at h1
        obtain ⟨-, he⟩ := h1
        have hsplit := List.takeWhile_append_dropWhile
          (fun c => decide (c ≠ '.')) l.reverse
        rw [hd] at hsplit
        refine ⟨b.reverse, ?_, ?_, ?_⟩
        · rw [← List.reverse_reverse l, ← hsplit]
          rw [← he]
          simp [List.reverse_append]
        · rw [← he]
          intro hmem
          rw [List.mem_reverse] at hmem
          have := List.mem_takeWhile_imp hmem
          simp at this
        · rcases List.any_eq_true.1 hany with ⟨c, hc, hcp⟩
          exact ⟨c, List.mem_reverse.2 hc, by simpa using hcp⟩
      · rw [if_neg hany] at h1
        simp at h1
  · rintro ⟨a, rfl, hne, c, hca, hcn⟩
    have hrev : (a ++ '.' :: e).reverse = e.reverse ++ '.' :: a.reverse := by
      simp [List.reverse_append]
    have hposs : ∀ y ∈ e.reverse, (decide (y ≠ '.')) = true := by
      intro y hy
      simp only [decide_eq_true_eq]
      intro hdot
      exact hne (List.mem_reverse.1 (hdot ▸ hy))
    have hdrop : (a ++ '.' :: e).reverse.dropWhile (fun c => c ≠ '.')
        = '.' :: a.reverse := by
      rw [hrev, List.dropWhile_append_of_pos hposs, List.dropWhile_cons]
      simp
    have htake : (a ++ '.' :: e).reverse.takeWhile (fun c => c ≠ '.')
        = e.reverse := by
      rw [hrev, List.takeWhile_append_of_pos hposs, List.takeWhile_cons]
      simp
    have hany : a.reverse.any (fun c => c ≠ '.') = true :=
      List.any_eq_true.2 ⟨c, List.mem_reverse.2 hca, by simpa using hcn⟩
    unfold splitextExt
    rw [hdrop]
    show (if a.reverse.any (fun c => decide (c ≠ '.')) = true then
        '.' :: ((a ++ '.' :: e).reverse.takeWhile (fun c => decide (c ≠ '.'))).reverse
      else []) = '.' :: e
    rw [if_pos hany, htake, List.reverse_reverse]

theorem splitextExt_shape (l : List Char) :
    splitextExt l = [] ∨ ∃ e, splitextExt l = '.' :: e := by
  unfold splitextExt
  rcases hd : l.reverse.dropWhile (fun c => c ≠ '.') with _ | ⟨x, b⟩
  · left
    rfl
  · by_cases hany : b.any (fun c => c ≠ '.') = true
    · right
      refine ⟨(l.reverse.takeWhile (fun c => c ≠ '.')).reverse, ?_⟩
      show (if b.any (fun c => decide (c ≠ '.')) = true then
          '.' :: (l.reverse.takeWhile (fun c => decide (c ≠ '.'))).reverse
        else []) = _
      rw [if_pos hany]
    · left
      show (if b.any (fun c => decide (c ≠ '.')) = true then
          '.' :: (l.reverse.takeWhile (fun c => decide (c ≠ '.'))).reverse
        else []) = []
      rw [if_neg hany]

end Oplah

namespace Oplah

/-- Extension-classification rule exactly as the claim words it (for
comparison with the code's `is_image`): take the substring of the
filename after the LAST '.', compare it case-insensitively against the
undotted extension names; false when the filename has no '.' at all. -/
def is_image_claim (f : String) : Bool :=
  if ('.' : Char) ∈ f.data then
    decide (((f.data.reverse.takeWhile (fun c => c ≠ '.')).reverse.map Char.toLower)
      ∈ ["png".data, "jpg".data, "jpeg".data, "gif".data, "webp".data,
         "bmp".data, "tif".data, "tiff".data, "svg".data])
  else false

/-- Claim C7 counterexample: for the filename ".png" the claim's rule
(substring after the last '.' is "png", a member of the set) answers
true, but the code's `os.path.splitext`-based classifier answers false,
because CPython treats a leading dot as part of the root, not as an
extension separator. -/
theorem claim_C7_counterexample :
    is_image_claim (".png") = true ∧ LinkList.is_image (".png") = false := by
  exact ⟨by decide, by decide⟩

/-- Claim C7 (amended): `is_image f` is true iff the lowercased filename
decomposes as `a ++ '.' :: b` where the dot is the LAST dot (no dot in
`b`), some character BEFORE that dot is not itself a dot (CPython's
leading-dots proviso, the one correction the counterexample forces), and
the dotted extension `'.' :: b` belongs to the fixed allowed set.  So the
match is case-insensitive on the substring after the last '.', except
that a dot preceded only by dots yields no extension. -/
theorem claim_C7_amended (f : String) :
    LinkList.is_image f = true ↔
      ∃ a b : List Char,
        f.data.map Char.toLower = a ++ '.' :: b ∧ ('.' : Char) ∉ b
        ∧ (∃ c ∈ a, c ≠ '.') ∧ ('.' :: b) ∈ LinkList.ALLOWED_EXT := by
  unfold LinkList.is_image
  rw [decide_eq_true_eq]
  constructor
  · intro hmem
    rcases splitextExt_shape (f.data.map Char.toLower) with hsh | ⟨e, hsh⟩
    · rw [hsh] at hmem
      exact absurd hmem (by decide)
    · rcases splitextExt_eq_dot.1 hsh with ⟨a, hla, hnd, hc⟩
      exact ⟨a, e, hla, hnd, hc, hsh ▸ hmem⟩
  · rintro ⟨a, b, hla, hnb, hca, hmem⟩
    have hx : splitextExt (f.data.map Char.toLower) = '.' :: b :=
      splitextExt_eq_dot.2 ⟨a, hla, hnb, hca⟩
    rw [hx]
    exact hmem

end Oplah
